import Mathlib

/-!
# slides-gruvbox: the `styles` package

A shallow embedding of `styles/styles.go` (theme resolution and the two layout
helpers) together with the properties established about it.

The package talks to three collaborators that live outside the repository:
the markdown renderer `glamour` (renderer options), the terminal styling
library `lipgloss` (measuring and placing text) and `termenv` (terminal
capability queries), plus the Go standard library (`net/http`, `io`, `os`).
Renderer options are kept as uninterpreted constructors, the answers of the
outside world are collected in an explicit environment `Env`.
-/

namespace Styles

/-! ## Renderer options (package `glamour`) -/

/-- Raw bytes, as in Go's `[]byte`. -/
abbrev Bytes := List UInt8

/-- A `glamour.TermRendererOption`. The option constructors of the renderer are
kept free (uninterpreted): two options are equal exactly when they were built by
the same calls on the same arguments. `WithOptions` is variadic in Go. -/
inductive TermRendererOption where
  | WithStandardStyle (style : String)
  | WithStylesFromJSONBytes (jsonBytes : Bytes)
  | WithStylesFromJSONFile (filename : String)
  | WithChromaFormatter (formatter : String)
  | WithOptions (options : List TermRendererOption)

open TermRendererOption

mutual
/-- Does the option set the Chroma formatter `formatter`, directly or inside a
`WithOptions` group? -/
def TermRendererOption.hasChromaFormatter (formatter : String) : TermRendererOption → Bool
  | WithStandardStyle _ => false
  | WithStylesFromJSONBytes _ => false
  | WithStylesFromJSONFile _ => false
  | WithChromaFormatter f => f == formatter
  | WithOptions options => hasChromaFormatterList formatter options
/-- Some option of the list sets the Chroma formatter `formatter`. -/
def TermRendererOption.hasChromaFormatterList (formatter : String) : List TermRendererOption → Bool
  | [] => false
  | o :: os => o.hasChromaFormatter formatter || hasChromaFormatterList formatter os
end

/-! ## The outside world -/

/-- An `*http.Response` as far as `SelectTheme` looks at it: the status code
(never inspected by the code) and what `io.ReadAll(resp.Body)` yields, the body
bytes or a read error. -/
structure Response where
  StatusCode : Int
  Body : Except String Bytes

/-- Everything `SelectTheme` obtains from outside the function: the result of
`http.Get`, the result of `os.Stat` (only its error is inspected), the two
`termenv` capability queries and the embedded `theme.json` bytes. -/
structure Env where
  httpGet : String → Except String Response
  osStat : String → Except String Unit
  EnvNoColor : Bool
  HasDarkBackground : Bool
  DefaultTheme : Bytes

/-! ## Theme resolution -/

/-- Go's `strings.HasPrefix`. -/
def HasPrefix (s pre : String) : Bool :=
  pre.data.isPrefixOf s.data

/-- The first `case` of the `switch` in `SelectTheme`. -/
def isPreset (theme : String) : Bool :=
  theme == "ascii" || theme == "light" || theme == "dark" || theme == "notty" ||
    theme == "pink" || theme == "dracula" || theme == "tokyo-night"

/-- The second `case` of the `switch` in `SelectTheme`. -/
def isURL (theme : String) : Bool :=
  HasPrefix theme "http://" || HasPrefix theme "https://"

/-- The function `getDefaultTheme` of `styles.go`. -/
def getDefaultTheme (env : Env) : TermRendererOption :=
  if env.EnvNoColor then
    WithStandardStyle "notty"
  else if !env.HasDarkBackground then
    WithOptions [WithStandardStyle "light", WithChromaFormatter "terminal256"]
  else
    WithOptions [WithStylesFromJSONBytes env.DefaultTheme, WithChromaFormatter "terminal256"]

/-- The function `SelectTheme` of `styles.go`. The two early `return`s of the URL
branch leave the function before the final `glamour.WithOptions` wrapper. The
deferred `resp.Body.Close()` has no part in the returned value and is left out. -/
def SelectTheme (env : Env) (theme : String) : TermRendererOption :=
  if isPreset theme then
    WithOptions [WithStandardStyle theme, WithChromaFormatter "terminal256"]
  else if isURL theme then
    match env.httpGet theme with
    | .error _ => getDefaultTheme env
    | .ok resp =>
      match resp.Body with
      | .error _ => getDefaultTheme env
      | .ok b => WithOptions [WithStylesFromJSONBytes b, WithChromaFormatter "terminal256"]
  else
    match env.osStat theme with
    | .ok _ => WithOptions [WithStylesFromJSONFile theme, WithChromaFormatter "terminal256"]
    | .error _ => WithOptions [WithStylesFromJSONBytes env.DefaultTheme, WithChromaFormatter "terminal256"]

/-- A sample environment: no network, no files, colour disabled. -/
def envOffline : Env :=
  { httpGet := fun _ => .error "connection refused"
    osStat := fun _ => .error "no such file or directory"
    EnvNoColor := true
    HasDarkBackground := true
    DefaultTheme := [123, 125] }

/-! ## Layout helpers (package `lipgloss`)

`JoinHorizontal` and `JoinVertical` are two lines each around `lipgloss.Width`,
`lipgloss.Height`, `lipgloss.PlaceHorizontal` and `lipgloss.PlaceVertical`. The
library is not part of the repository; the definitions below follow its
documentation: a block is measured by its widest line and by its line feeds, a
placement that does not fit returns the block unchanged, the fill is made of
blanks. The cell width of a single line (`ansi.StringWidth`, which skips escape
sequences and counts wide characters twice) stays a parameter `sw`. Integers are
Go's 64-bit `int`: every subtraction and addition goes through `wrapInt`.
-/

/-- Go's `int` (64 bits, two's complement): the value an arithmetic result
takes after wrapping around. -/
def wrapInt (x : Int) : Int :=
  (x + 2 ^ 63) % 2 ^ 64 - 2 ^ 63

/-- Cut a text at every line feed; the pieces never contain one. -/
def splitLF : List Char → List (List Char)
  | [] => [[]]
  | c :: cs =>
    if c = '\n' then [] :: splitLF cs
    else
      match splitLF cs with
      | [] => [[c]]
      | l :: ls => (c :: l) :: ls

/-- Go's `strings.Split(s, "\n")`. -/
def Split (s : String) : List String :=
  (splitLF s.data).map String.mk

/-- Go's `strings.Count(s, "\n")`. -/
def Count (s : String) : Nat :=
  s.data.count '\n'

/-- Lines written one after the other with a line feed between two of them and
none at the end, as the `strings.Builder` loops of `lipgloss` do. -/
def joinLines : List String → String
  | [] => ""
  | [l] => l
  | l :: ls => l ++ "\n" ++ joinLines ls

/-- Go's `strings.Repeat`. -/
def Repeat (s : String) : Nat → String
  | 0 => ""
  | n + 1 => s ++ Repeat s n

/-- Modelled from the spec: `whitespace.render` of `lipgloss` is not part of the
repository. No whitespace option is passed by `styles.go`, so the fill is made of
blanks: `width` of them, none for a width that is not positive. -/
def render (width : Int) : String :=
  String.mk (List.replicate width.toNat ' ')

/-- The widest line among `lines` under the line measure `sw`, starting from
`widest`: the loop shared by `lipgloss.Width` and `getLines`. -/
def widestLine (sw : String → Nat) (lines : List String) (widest : Nat) : Nat :=
  lines.foldl (fun widest l => if widest < sw l then sw l else widest) widest

/-- Modelled from the spec: `lipgloss.Width`, the display width of a text block,
is not part of the repository. It is the greatest cell width of a line; the cell
width of one line (`ansi.StringWidth`) is the parameter `sw`. -/
def Width (sw : String → Nat) (str : String) : Nat :=
  widestLine sw (Split str) 0

/-- Modelled from the spec: `lipgloss.Height`, the display height of a text
block, is not part of the repository. It is the number of line feeds plus one. -/
def Height (str : String) : Nat :=
  Count str + 1

/-- Modelled from the spec: `getLines` of `lipgloss` is not part of the
repository. It returns the lines of a block and the width of the widest. -/
def getLines (sw : String → Nat) (s : String) : List String × Nat :=
  (Split s, widestLine sw (Split s) 0)

/-- The positions of `lipgloss` that `styles.go` and its mirror images name:
`Left` and `Top` are the same value, so are `Right` and `Bottom`. -/
inductive Position where
  | Left
  | Right

/-- The position `lipgloss.Top`. -/
abbrev Position.Top : Position := Position.Left

/-- The position `lipgloss.Bottom`. -/
abbrev Position.Bottom : Position := Position.Right

/-- Modelled from the spec: `lipgloss.PlaceHorizontal` is not part of the
repository. It places a block in an unstyled block of the given width; when the
width is not greater than the width of the block it returns the block unchanged,
otherwise every line is filled up to the width, after the line for `Left` and
before it for `Right`. -/
def PlaceHorizontal (sw : String → Nat) (width : Int) (pos : Position) (str : String) : String :=
  let lines := (getLines sw str).1
  let contentWidth := (getLines sw str).2
  let gap := wrapInt (width - contentWidth)
  if gap ≤ 0 then str
  else
    joinLines (lines.map fun l =>
      let short := max 0 (wrapInt ((contentWidth : Int) - (sw l : Int)))
      match pos with
      | .Left => l ++ render (wrapInt (gap + short))
      | .Right => render (wrapInt (gap + short)) ++ l)

/-- Modelled from the spec: `lipgloss.PlaceVertical` is not part of the
repository. It places a block in an unstyled block of the given height; when the
height is not greater than the height of the block it returns the block
unchanged, otherwise lines of blanks as wide as the block are added, below the
block for `Top` and above it for `Bottom`. -/
def PlaceVertical (sw : String → Nat) (height : Int) (pos : Position) (str : String) : String :=
  let contentHeight := Count str + 1
  let gap := wrapInt (height - contentHeight)
  if gap ≤ 0 then str
  else
    let width := (getLines sw str).2
    let emptyLine := render width
    match pos with
    | .Left => -- `Top`
      str ++ "\n" ++ joinLines (List.replicate gap.toNat emptyLine)
    | .Right => -- `Bottom`
      Repeat (emptyLine ++ "\n") gap.toNat ++ str

/-- The function `JoinHorizontal` of `styles.go`. -/
def JoinHorizontal (sw : String → Nat) (left right : String) (width : Int) : String :=
  let w := wrapInt (width - Width sw right)
  PlaceHorizontal sw w Position.Left left ++ right

/-- The function `JoinVertical` of `styles.go`. -/
def JoinVertical (sw : String → Nat) (top bottom : String) (height : Int) : String :=
  let h := wrapInt (height - Height bottom)
  PlaceVertical sw h Position.Top top ++ bottom

/-- A sample environment: the network answers with an error page, every path
exists, colour is enabled on a light background. -/
def envOnline : Env :=
  { httpGet := fun _ => .ok { StatusCode := 404, Body := .ok [60, 104, 49, 62] }
    osStat := fun _ => .ok ()
    EnvNoColor := false
    HasDarkBackground := false
    DefaultTheme := [123, 125] }

/-- A sample environment: the request succeeds but reading the body fails;
colour is enabled on a dark background. -/
def envBrokenBody : Env :=
  { httpGet := fun _ => .ok { StatusCode := 200, Body := .error "unexpected EOF" }
    osStat := fun _ => .error "no such file or directory"
    EnvNoColor := false
    HasDarkBackground := true
    DefaultTheme := [123, 125] }

/-- The scan behind `cellWidth`: outside an escape sequence every character
counts one column and `ESC` opens a sequence; inside, everything is skipped up
to the letter that ends the sequence. -/
def cellWidthFrom : Bool → List Char → Nat
  | _, [] => 0
  | false, c :: cs =>
    if c = '\x1b' then cellWidthFrom true cs else 1 + cellWidthFrom false cs
  | true, c :: cs =>
    if c.isAlpha then cellWidthFrom false cs else cellWidthFrom true cs

/-- A sample line measure that skips colour escape sequences (`ESC [ 3 1 m`) and
counts one column for every other character. -/
def cellWidth (s : String) : Nat :=
  cellWidthFrom false s.data

/-! ## Theme resolution: properties -/

theorem isPreset_of_mem {theme : String}
    (h : theme ∈ ["ascii", "light", "dark", "notty", "pink", "dracula", "tokyo-night"]) :
    isPreset theme = true := by
  simp only [List.mem_cons, List.mem_singleton, List.not_mem_nil, or_false] at h
  rcases h with h | h | h | h | h | h | h <;> subst h <;> decide

theorem isPreset_of_not_mem {theme : String}
    (h : theme ∉ ["ascii", "light", "dark", "notty", "pink", "dracula", "tokyo-night"]) :
    isPreset theme = false := by
  simp only [List.mem_cons, List.mem_singleton, List.not_mem_nil, or_false, not_or] at h
  simp [isPreset, h]

theorem isURL_of_hasPrefix {theme : String}
    (h : HasPrefix theme "http://" = true ∨ HasPrefix theme "https://" = true) :
    isURL theme = true := by
  simpa [isURL] using h

theorem isURL_of_not_hasPrefix {theme : String}
    (h1 : HasPrefix theme "http://" = false) (h2 : HasPrefix theme "https://" = false) :
    isURL theme = false := by
  simp [isURL, h1, h2]

/-- The value of `getDefaultTheme` in each of its three branches. -/
theorem getDefaultTheme_cases (env : Env) :
    (env.EnvNoColor = true → getDefaultTheme env = WithStandardStyle "notty") ∧
    (env.EnvNoColor = false → env.HasDarkBackground = false →
      getDefaultTheme env =
        WithOptions [WithStandardStyle "light", WithChromaFormatter "terminal256"]) ∧
    (env.EnvNoColor = false → env.HasDarkBackground = true →
      getDefaultTheme env =
        WithOptions [WithStylesFromJSONBytes env.DefaultTheme,
          WithChromaFormatter "terminal256"]) := by
  refine ⟨fun h => ?_, fun h1 h2 => ?_, fun h1 h2 => ?_⟩ <;> simp [getDefaultTheme, *]

/-- The formatter is missing from the result of `getDefaultTheme` exactly when
colour is disabled. -/
theorem getDefaultTheme_hasChromaFormatter (env : Env) :
    (getDefaultTheme env).hasChromaFormatter "terminal256" = !env.EnvNoColor := by
  unfold getDefaultTheme
  cases env.EnvNoColor <;> cases env.HasDarkBackground <;>
    simp [hasChromaFormatter, hasChromaFormatterList]

/-- Every path of `SelectTheme` that reaches the end of the function carries
the formatter; only the two early returns may lack it, and they do exactly when
colour is disabled. -/
theorem SelectTheme_hasChromaFormatter_iff (env : Env) (theme : String) :
    (SelectTheme env theme).hasChromaFormatter "terminal256" = false ↔
      isPreset theme = false ∧ isURL theme = true ∧ env.EnvNoColor = true ∧
        ((∃ e, env.httpGet theme = .error e) ∨
          (∃ resp e, env.httpGet theme = .ok resp ∧ resp.Body = .error e)) := by
  unfold SelectTheme
  cases hp : isPreset theme
  · cases hu : isURL theme
    · cases env.osStat theme <;> simp [hasChromaFormatter, hasChromaFormatterList]
    · cases hg : env.httpGet theme with
      | error e => simp [getDefaultTheme_hasChromaFormatter]
      | ok resp =>
        cases hb : resp.Body with
        | error e => simp [getDefaultTheme_hasChromaFormatter, hb]
        | ok b => simp [hasChromaFormatter, hasChromaFormatterList, hb]
  · simp [hasChromaFormatter, hasChromaFormatterList]

/-- C1, evaluated on the code: for the identifier `http://localhost:1/t.json`,
with the request refused and colour disabled, `SelectTheme` returns the bare
`notty` standard style, which does not carry the `terminal256` formatter. -/
theorem SelectTheme_url_failure_nocolor_lacks_formatter :
    SelectTheme envOffline "http://localhost:1/t.json" = WithStandardStyle "notty" ∧
      (SelectTheme envOffline "http://localhost:1/t.json").hasChromaFormatter "terminal256"
        = false := by
  constructor
  · rfl
  · decide

/-- C2: for each of the seven preset names, `SelectTheme` returns the standard
style of that name grouped with the `terminal256` formatter, in every
environment; two environments never give different results. -/
theorem SelectTheme_preset (env : Env) (theme : String)
    (h : theme ∈ ["ascii", "light", "dark", "notty", "pink", "dracula", "tokyo-night"]) :
    SelectTheme env theme =
        WithOptions [WithStandardStyle theme, WithChromaFormatter "terminal256"] ∧
      (SelectTheme env theme).hasChromaFormatter "terminal256" = true ∧
      ∀ env2 : Env, SelectTheme env2 theme = SelectTheme env theme := by
  have hp := isPreset_of_mem h
  have key : ∀ e : Env, SelectTheme e theme =
      WithOptions [WithStandardStyle theme, WithChromaFormatter "terminal256"] := by
    intro e
    simp [SelectTheme, hp]
  refine ⟨key env, ?_, fun env2 => by rw [key env2, key env]⟩
  rw [key env]
  simp [hasChromaFormatter, hasChromaFormatterList]

theorem SelectTheme_preset_witness :
    "dracula" ∈ ["ascii", "light", "dark", "notty", "pink", "dracula", "tokyo-night"] ∧
      (SelectTheme envOnline "dracula" =
          WithOptions [WithStandardStyle "dracula", WithChromaFormatter "terminal256"] ∧
        (SelectTheme envOnline "dracula").hasChromaFormatter "terminal256" = true ∧
        ∀ env2 : Env, SelectTheme env2 "dracula" = SelectTheme envOnline "dracula") :=
  ⟨by decide, SelectTheme_preset envOnline "dracula" (by decide)⟩

/-- C3, evaluated on the code: for the empty identifier, with no such path and
colour disabled, `SelectTheme` returns the embedded bytes with the formatter,
whereas `getDefaultTheme` answers the bare `notty` style in that environment. -/
theorem SelectTheme_unresolved_ignores_capabilities :
    SelectTheme envOffline "" =
        WithOptions [WithStylesFromJSONBytes envOffline.DefaultTheme,
          WithChromaFormatter "terminal256"] ∧
      getDefaultTheme envOffline = WithStandardStyle "notty" ∧
      SelectTheme envOffline "" ≠ getDefaultTheme envOffline := by
  refine ⟨rfl, rfl, ?_⟩
  intro h
  have h2 : SelectTheme envOffline "" = WithStandardStyle "notty" := h
  have h3 : SelectTheme envOffline "" =
      WithOptions [WithStylesFromJSONBytes envOffline.DefaultTheme,
        WithChromaFormatter "terminal256"] := rfl
  rw [h3] at h2
  exact TermRendererOption.noConfusion h2

/-- What the last branch of `SelectTheme` returns when the path does not exist:
the embedded bytes with the formatter, whatever the terminal queries answer. -/
theorem SelectTheme_unresolved (env : Env) (theme : String) (e : String)
    (hp : theme ∉ ["ascii", "light", "dark", "notty", "pink", "dracula", "tokyo-night"])
    (h1 : HasPrefix theme "http://" = false) (h2 : HasPrefix theme "https://" = false)
    (hs : env.osStat theme = .error e) :
    SelectTheme env theme =
      WithOptions [WithStylesFromJSONBytes env.DefaultTheme,
        WithChromaFormatter "terminal256"] := by
  simp [SelectTheme, isPreset_of_not_mem hp, isURL_of_not_hasPrefix h1 h2, hs]

/-- C4: for an identifier outside the presets that starts with `http://` or
`https://`, a failed request and a failed body read both make `SelectTheme`
return exactly `getDefaultTheme`: the `notty` style when colour is disabled,
else the `light` style on a background that is not dark, else the embedded
bytes. -/
theorem SelectTheme_url_failure (env : Env) (theme : String)
    (hp : theme ∉ ["ascii", "light", "dark", "notty", "pink", "dracula", "tokyo-night"])
    (hu : HasPrefix theme "http://" = true ∨ HasPrefix theme "https://" = true)
    (hf : (∃ e, env.httpGet theme = .error e) ∨
      (∃ resp e, env.httpGet theme = .ok resp ∧ resp.Body = .error e)) :
    SelectTheme env theme = getDefaultTheme env ∧
      (env.EnvNoColor = true → SelectTheme env theme = WithStandardStyle "notty") ∧
      (env.EnvNoColor = false → env.HasDarkBackground = false →
        SelectTheme env theme =
          WithOptions [WithStandardStyle "light", WithChromaFormatter "terminal256"]) ∧
      (env.EnvNoColor = false → env.HasDarkBackground = true →
        SelectTheme env theme =
          WithOptions [WithStylesFromJSONBytes env.DefaultTheme,
            WithChromaFormatter "terminal256"]) := by
  have key : SelectTheme env theme = getDefaultTheme env := by
    rcases hf with ⟨e, he⟩ | ⟨resp, e, hr, hb⟩
    · simp [SelectTheme, isPreset_of_not_mem hp, isURL_of_hasPrefix hu, he]
    · simp [SelectTheme, isPreset_of_not_mem hp, isURL_of_hasPrefix hu, hr, hb]
  rw [key]
  exact ⟨rfl, getDefaultTheme_cases env⟩

theorem SelectTheme_url_failure_witness :
    "https://example.org/t.json" ∉
        ["ascii", "light", "dark", "notty", "pink", "dracula", "tokyo-night"] ∧
      (HasPrefix "https://example.org/t.json" "http://" = true ∨
        HasPrefix "https://example.org/t.json" "https://" = true) ∧
      ((∃ e, envBrokenBody.httpGet "https://example.org/t.json" = .error e) ∨
        (∃ resp e, envBrokenBody.httpGet "https://example.org/t.json" = .ok resp ∧
          resp.Body = .error e)) ∧
      (SelectTheme envBrokenBody "https://example.org/t.json" = getDefaultTheme envBrokenBody ∧
        (envBrokenBody.EnvNoColor = true →
          SelectTheme envBrokenBody "https://example.org/t.json" = WithStandardStyle "notty") ∧
        (envBrokenBody.EnvNoColor = false → envBrokenBody.HasDarkBackground = false →
          SelectTheme envBrokenBody "https://example.org/t.json" =
            WithOptions [WithStandardStyle "light", WithChromaFormatter "terminal256"]) ∧
        (envBrokenBody.EnvNoColor = false → envBrokenBody.HasDarkBackground = true →
          SelectTheme envBrokenBody "https://example.org/t.json" =
            WithOptions [WithStylesFromJSONBytes envBrokenBody.DefaultTheme,
              WithChromaFormatter "terminal256"])) :=
  ⟨by decide, Or.inr (by decide),
    Or.inr ⟨{ StatusCode := 200, Body := .error "unexpected EOF" }, "unexpected EOF", rfl, rfl⟩,
    SelectTheme_url_failure envBrokenBody "https://example.org/t.json" (by decide)
      (Or.inr (by decide))
      (Or.inr ⟨{ StatusCode := 200, Body := .error "unexpected EOF" }, "unexpected EOF",
        rfl, rfl⟩)⟩

/-- C5: for an identifier outside the presets that starts with `http://` or
`https://`, when the request and the body read both succeed `SelectTheme`
returns the JSON-bytes source holding exactly the body bytes, grouped with the
`terminal256` formatter. Any other environment and response with the same body
(other status code, other files, other terminal answers) gives the same
result. -/
theorem SelectTheme_url_success (env : Env) (theme : String) (resp : Response) (b : Bytes)
    (hp : theme ∉ ["ascii", "light", "dark", "notty", "pink", "dracula", "tokyo-night"])
    (hu : HasPrefix theme "http://" = true ∨ HasPrefix theme "https://" = true)
    (hg : env.httpGet theme = .ok resp) (hb : resp.Body = .ok b) :
    SelectTheme env theme =
        WithOptions [WithStylesFromJSONBytes b, WithChromaFormatter "terminal256"] ∧
      ∀ (env2 : Env) (resp2 : Response), env2.httpGet theme = .ok resp2 → resp2.Body = .ok b →
        SelectTheme env2 theme = SelectTheme env theme := by
  have key : ∀ (e : Env) (r : Response), e.httpGet theme = .ok r → r.Body = .ok b →
      SelectTheme e theme =
        WithOptions [WithStylesFromJSONBytes b, WithChromaFormatter "terminal256"] := by
    intro e r hr hrb
    simp [SelectTheme, isPreset_of_not_mem hp, isURL_of_hasPrefix hu, hr, hrb]
  exact ⟨key env resp hg hb, fun env2 resp2 h1 h2 => by rw [key env2 resp2 h1 h2, key env resp hg hb]⟩

theorem SelectTheme_url_success_witness :
    "http://example.org/t.json" ∉
        ["ascii", "light", "dark", "notty", "pink", "dracula", "tokyo-night"] ∧
      (HasPrefix "http://example.org/t.json" "http://" = true ∨
        HasPrefix "http://example.org/t.json" "https://" = true) ∧
      envOnline.httpGet "http://example.org/t.json" =
        .ok { StatusCode := 404, Body := .ok [60, 104, 49, 62] } ∧
      (SelectTheme envOnline "http://example.org/t.json" =
          WithOptions [WithStylesFromJSONBytes [60, 104, 49, 62],
            WithChromaFormatter "terminal256"] ∧
        ∀ (env2 : Env) (resp2 : Response),
          env2.httpGet "http://example.org/t.json" = .ok resp2 →
          resp2.Body = .ok [60, 104, 49, 62] →
          SelectTheme env2 "http://example.org/t.json" =
            SelectTheme envOnline "http://example.org/t.json") :=
  ⟨by decide, Or.inl (by decide), rfl,
    SelectTheme_url_success envOnline "http://example.org/t.json"
      { StatusCode := 404, Body := .ok [60, 104, 49, 62] } [60, 104, 49, 62]
      (by decide) (Or.inl (by decide)) rfl rfl⟩

/-- C6: for an identifier outside the presets that does not start with `http://`
or `https://` and for which `os.Stat` reports no error, `SelectTheme` returns the
JSON-file source for exactly that path, grouped with the `terminal256`
formatter. The file is never opened and any environment in which the path exists
gives the same result. -/
theorem SelectTheme_existing_path (env : Env) (theme : String)
    (hp : theme ∉ ["ascii", "light", "dark", "notty", "pink", "dracula", "tokyo-night"])
    (h1 : HasPrefix theme "http://" = false) (h2 : HasPrefix theme "https://" = false)
    (hs : env.osStat theme = .ok ()) :
    SelectTheme env theme =
        WithOptions [WithStylesFromJSONFile theme, WithChromaFormatter "terminal256"] ∧
      ∀ env2 : Env, env2.osStat theme = .ok () →
        SelectTheme env2 theme = SelectTheme env theme := by
  have key : ∀ e : Env, e.osStat theme = .ok () →
      SelectTheme e theme =
        WithOptions [WithStylesFromJSONFile theme, WithChromaFormatter "terminal256"] := by
    intro e he
    simp [SelectTheme, isPreset_of_not_mem hp, isURL_of_not_hasPrefix h1 h2, he]
  exact ⟨key env hs, fun env2 he => by rw [key env2 he, key env hs]⟩

theorem SelectTheme_existing_path_witness :
    "themes/mine.json" ∉
        ["ascii", "light", "dark", "notty", "pink", "dracula", "tokyo-night"] ∧
      HasPrefix "themes/mine.json" "http://" = false ∧
      HasPrefix "themes/mine.json" "https://" = false ∧
      envOnline.osStat "themes/mine.json" = .ok () ∧
      (SelectTheme envOnline "themes/mine.json" =
          WithOptions [WithStylesFromJSONFile "themes/mine.json",
            WithChromaFormatter "terminal256"] ∧
        ∀ env2 : Env, env2.osStat "themes/mine.json" = .ok () →
          SelectTheme env2 "themes/mine.json" = SelectTheme envOnline "themes/mine.json") :=
  ⟨by decide, by decide, by decide, rfl,
    SelectTheme_existing_path envOnline "themes/mine.json" (by decide) (by decide) (by decide)
      rfl⟩

/-! ## Layout helpers: properties -/

theorem wrapInt_eq {x : Int} (h1 : -(2 ^ 63) ≤ x) (h2 : x < 2 ^ 63) : wrapInt x = x := by
  unfold wrapInt
  omega

theorem splitLF_of_not_mem {l : List Char} (h : '\n' ∉ l) : splitLF l = [l] := by
  induction l with
  | nil => rfl
  | cons c cs ih =>
    have hc : c ≠ '\n' := fun hc => h (by simp [hc])
    have hcs : '\n' ∉ cs := fun hm => h (List.mem_cons_of_mem _ hm)
    simp [splitLF, hc, ih hcs]

theorem Split_of_single_line {s : String} (h : '\n' ∉ s.data) : Split s = [s] := by
  simp [Split, splitLF_of_not_mem h]

theorem Width_of_single_line (sw : String → Nat) {s : String} (h : '\n' ∉ s.data) :
    Width sw s = sw s := by
  simp only [Width, Split_of_single_line h, widestLine, List.foldl]
  split <;> omega

theorem render_of_nonpos {n : Int} (h : n ≤ 0) : render n = "" := by
  simp [render, Int.toNat_eq_zero.mpr h]

theorem String_append_empty_right (s : String) : s ++ "" = s := by
  apply String.ext
  simp

/-- When the block is at least as wide as the requested width, the placement is
the identity. -/
theorem PlaceHorizontal_noop (sw : String → Nat) (width : Int) (pos : Position) (str : String)
    (h : wrapInt (width - Width sw str) ≤ 0) :
    PlaceHorizontal sw width pos str = str := by
  have h2 : wrapInt (width - (getLines sw str).2) ≤ 0 := h
  simp [PlaceHorizontal, h2]

/-- Placing a single line to the left: the line followed by the missing
columns. -/
theorem PlaceHorizontal_single_line (sw : String → Nat) (width : Int) (str : String)
    (hs : '\n' ∉ str.data) (h1 : -(2 ^ 63) ≤ width - sw str) (h2 : width < 2 ^ 63) :
    PlaceHorizontal sw width Position.Left str = str ++ render (width - sw str) := by
  have hW : (getLines sw str).2 = sw str := Width_of_single_line sw hs
  have hL : (getLines sw str).1 = [str] := Split_of_single_line hs
  have hgap : wrapInt (width - sw str) = width - sw str := wrapInt_eq h1 (by omega)
  by_cases hg : width - sw str ≤ 0
  · rw [render_of_nonpos hg, String_append_empty_right]
    apply PlaceHorizontal_noop
    rw [Width_of_single_line sw hs, hgap]
    exact hg
  · have hz : wrapInt 0 = 0 := by decide
    have hg2 : wrapInt (width - sw str + 0) = width - sw str := by
      rw [Int.add_zero]; exact hgap
    simp [PlaceHorizontal, hW, hL, hgap, hg, hz, hg2, joinLines]

/-- The result of `JoinHorizontal` on two single lines that fit. -/
theorem JoinHorizontal_eq_of_fit (sw : String → Nat) (left right : String) (width : Int)
    (hl : '\n' ∉ left.data) (hr : '\n' ∉ right.data)
    (hfit : (sw left : Int) + sw right ≤ width) (hw : width < 2 ^ 63) :
    JoinHorizontal sw left right width =
      left ++ String.mk (List.replicate (width - sw left - sw right).toNat ' ') ++ right := by
  have hwr : wrapInt (width - sw right) = width - sw right :=
    wrapInt_eq (by omega) (by omega)
  have hn : width - (sw right : Int) - sw left = width - sw left - sw right := by omega
  simp only [JoinHorizontal, Width_of_single_line sw hr, hwr]
  rw [PlaceHorizontal_single_line sw _ left hl (by omega) (by omega), render, hn]

/-- C7: for two single lines with `Width left + Width right ≤ width`,
`JoinHorizontal` is `left`, then `width - Width left - Width right` blanks, then
`right`; in particular `JoinHorizontal "AB" "CD" 10` is `AB`, six blanks, `CD`,
ten columns wide. Here `sw` measures the cells of a line and `width` is a Go
`int`. -/
theorem JoinHorizontal_fills_gap (sw : String → Nat) (left right : String) (width : Int)
    (hl : '\n' ∉ left.data) (hr : '\n' ∉ right.data)
    (hfit : (Width sw left : Int) + Width sw right ≤ width) (hw : width < 2 ^ 63) :
    JoinHorizontal sw left right width =
        left ++ String.mk (List.replicate (width - Width sw left - Width sw right).toNat ' ')
          ++ right ∧
      JoinHorizontal String.length "AB" "CD" 10 = "AB      CD" ∧
      Width String.length (JoinHorizontal String.length "AB" "CD" 10) = 10 := by
  rw [Width_of_single_line sw hl, Width_of_single_line sw hr] at hfit ⊢
  exact ⟨JoinHorizontal_eq_of_fit sw left right width hl hr hfit hw, by decide, by decide⟩

theorem JoinHorizontal_fills_gap_witness :
    '\n' ∉ "AB".data ∧ '\n' ∉ "CD".data ∧
      ((Width String.length "AB" : Int) + Width String.length "CD" ≤ 10) ∧
      ((10 : Int) < 2 ^ 63) ∧
      (JoinHorizontal String.length "AB" "CD" 10 =
          "AB" ++ String.mk (List.replicate
            ((10 : Int) - Width String.length "AB" - Width String.length "CD").toNat ' ')
            ++ "CD" ∧
        JoinHorizontal String.length "AB" "CD" 10 = "AB      CD" ∧
        Width String.length (JoinHorizontal String.length "AB" "CD" 10) = 10) :=
  ⟨by decide, by decide, by decide, by decide,
    JoinHorizontal_fills_gap String.length "AB" "CD" 10 (by decide) (by decide) (by decide)
      (by decide)⟩

/-- C8, refuted as stated: the result of `JoinHorizontal` is not always `width`
columns wide. `"ABC"` and `"DE"` in 3 columns give `"ABCDE"`, 5 columns; a
second line in `right` gives 4 columns for 6; a second line in `left` with no
column to spare gives 2 columns for 3. -/
theorem JoinHorizontal_width_counterexample :
    (¬ ∀ (left right : String) (width : Int), 0 ≤ width →
        (Width String.length (JoinHorizontal String.length left right width) : Int) = width) ∧
      (JoinHorizontal String.length "ABC" "DE" 3 = "ABCDE" ∧
        Width String.length (JoinHorizontal String.length "ABC" "DE" 3) = 5) ∧
      (JoinHorizontal String.length "a" "c\ndddd" 6 = "a c\ndddd" ∧
        Width String.length (JoinHorizontal String.length "a" "c\ndddd" 6) = 4) ∧
      (JoinHorizontal String.length "aa\nb" "c" 3 = "aa\nbc" ∧
        Width String.length (JoinHorizontal String.length "aa\nb" "c" 3) = 2) := by
  refine ⟨fun h => ?_, by decide, by decide, by decide⟩
  have h3 := h "ABC" "DE" 3 (by decide)
  revert h3
  decide

theorem splitLF_ne_nil (cs : List Char) : splitLF cs ≠ [] := by
  cases cs with
  | nil => simp [splitLF]
  | cons c cs =>
    simp only [splitLF]
    split
    · simp
    · split <;> simp

theorem splitLF_no_lf (cs : List Char) : ∀ l ∈ splitLF cs, '\n' ∉ l := by
  induction cs with
  | nil => simp [splitLF]
  | cons c cs ih =>
    intro l hl
    simp only [splitLF] at hl
    split at hl
    · rcases List.mem_cons.mp hl with h | h
      · simp [h]
      · exact ih l h
    · rename_i hc
      split at hl
      · rename_i heq
        exact absurd heq (splitLF_ne_nil cs)
      · rename_i l0 ls heq
        rcases List.mem_cons.mp hl with h | h
        · subst h
          have h0 := ih l0 (by simp [heq])
          simp only [List.mem_cons, not_or]
          exact ⟨fun h => hc h.symm, h0⟩
        · exact ih l (by simp [heq, h])

theorem splitLF_append_lf (a b : List Char) (ha : '\n' ∉ a) :
    splitLF (a ++ '\n' :: b) = a :: splitLF b := by
  induction a with
  | nil => simp [splitLF]
  | cons c cs ih =>
    have hc : c ≠ '\n' := fun hc => ha (by simp [hc])
    have hcs : '\n' ∉ cs := fun hm => ha (List.mem_cons_of_mem _ hm)
    simp [splitLF, hc, ih hcs]

theorem Split_ne_nil (s : String) : Split s ≠ [] := by
  simp [Split, splitLF_ne_nil]

theorem Split_no_lf (s : String) : ∀ l ∈ Split s, '\n' ∉ l.data := by
  intro l hl
  simp only [Split, List.mem_map] at hl
  obtain ⟨cs, hcs, rfl⟩ := hl
  exact splitLF_no_lf s.data cs hcs

theorem Split_joinLines_cons (q q2 : String) (rest : List String) (r : String)
    (hq : '\n' ∉ q.data) :
    Split (joinLines (q :: q2 :: rest) ++ r) = q :: Split (joinLines (q2 :: rest) ++ r) := by
  have h : (joinLines (q :: q2 :: rest) ++ r).data =
      q.data ++ '\n' :: (joinLines (q2 :: rest) ++ r).data := by
    simp [joinLines, String.data_append]
  simp [Split, h, splitLF_append_lf _ _ hq]

theorem widestLine_cons (sw : String → Nat) (x : String) (xs : List String) (acc : Nat) :
    widestLine sw (x :: xs) acc = widestLine sw xs (max acc (sw x)) := by
  have h : (if acc < sw x then sw x else acc) = max acc (sw x) := by
    split <;> omega
  simp only [widestLine, List.foldl_cons, h]

theorem widestLine_le (sw : String → Nat) (L : List String) (acc : Nat) :
    acc ≤ widestLine sw L acc ∧ ∀ l ∈ L, sw l ≤ widestLine sw L acc := by
  induction L generalizing acc with
  | nil => simp [widestLine]
  | cons x xs ih =>
    rw [widestLine_cons]
    have h := ih (max acc (sw x))
    refine ⟨by omega, ?_⟩
    intro l hl
    rcases List.mem_cons.mp hl with rfl | hm
    · omega
    · exact h.2 l hm

/-- The widest line of a block whose lines are the lines `L` extended by `f`,
all `w` columns wide but the last, which is continued by a single line `r` and
is `w + sw r` columns wide then. -/
theorem widestLine_joinLines_append (sw : String → Nat) (f : String → String) (w : Nat)
    (r : String) (hr : '\n' ∉ r.data) (L : List String) (hne : L ≠ [])
    (hno : ∀ l ∈ L, '\n' ∉ (f l).data)
    (hinit : ∀ l ∈ L.dropLast, sw (f l) = w)
    (hlast : ∀ l ∈ L.getLast?, sw (f l ++ r) = w + sw r) (acc : Nat) :
    widestLine sw (Split (joinLines (L.map f) ++ r)) acc = max acc (w + sw r) := by
  induction L generalizing acc with
  | nil => exact absurd rfl hne
  | cons l L2 ih =>
    have hl := hno l (by simp)
    cases L2 with
    | nil =>
      have hnl : '\n' ∉ (f l ++ r).data := by
        simp only [String.data_append, List.mem_append, not_or]
        exact ⟨hl, hr⟩
      have h := hlast l (by simp)
      simp only [List.map, joinLines, Split_of_single_line hnl, widestLine_cons, h]
      simp [widestLine]
    | cons l2 rest =>
      have h1 : sw (f l) = w := hinit l (by simp [List.dropLast])
      simp only [List.map]
      rw [Split_joinLines_cons (f l) (f l2) (rest.map f) r hl, widestLine_cons]
      have h2 := ih (by simp) (fun x hx => hno x (List.mem_cons_of_mem _ hx))
        (fun x hx => hinit x (by
          rw [List.dropLast_cons₂]
          exact List.mem_cons_of_mem _ hx))
        (fun x hx => hlast x (by
          rw [List.getLast?_cons_cons]
          exact hx)) (max acc (sw (f l)))
      simp only [List.map] at h2
      rw [h2, h1]
      omega

/-- Each line of a block starts the corresponding line of the block obtained by
extending every line with `f` and continuing the last one by `r`. -/
theorem lines_start_joinLines (f : String → String) (r : String) (hr : '\n' ∉ r.data)
    (L : List String) (hne : L ≠ [])
    (hf : ∀ l ∈ L, l.data <+: (f l).data ∧ '\n' ∉ (f l).data) :
    List.Forall₂ (fun l x : String => l.data <+: x.data) L
      (Split (joinLines (L.map f) ++ r)) := by
  induction L with
  | nil => exact absurd rfl hne
  | cons l L2 ih =>
    have hl := hf l (by simp)
    cases L2 with
    | nil =>
      have hnl : '\n' ∉ (f l ++ r).data := by
        simp only [String.data_append, List.mem_append, not_or]
        exact ⟨hl.2, hr⟩
      simp only [List.map, joinLines, Split_of_single_line hnl]
      refine List.Forall₂.cons ?_ List.Forall₂.nil
      rw [String.data_append]
      exact hl.1.trans (List.prefix_append _ _)
    | cons l2 rest =>
      simp only [List.map]
      rw [Split_joinLines_cons (f l) (f l2) (rest.map f) r hl.2]
      exact List.Forall₂.cons hl.1
        (ih (by simp) (fun x hx => hf x (List.mem_cons_of_mem _ hx)))

/-- With room to spare, placing a block to the left fills every line. -/
theorem PlaceHorizontal_of_gap (sw : String → Nat) (width : Int) (str : String)
    (h : 0 < wrapInt (width - Width sw str)) :
    PlaceHorizontal sw width Position.Left str =
      joinLines ((Split str).map fun l =>
        l ++ render (wrapInt (wrapInt (width - Width sw str) +
          max 0 (wrapInt ((Width sw str : Int) - (sw l : Int)))))) := by
  have h2 : ¬ wrapInt (width - (widestLine sw (Split str) 0 : Nat)) ≤ 0 := not_le.mpr h
  simp only [PlaceHorizontal, getLines, Width, h2, if_false]

theorem render_blank_free (n : Int) : '\n' ∉ (render n).data := by
  simp only [render]
  intro hm
  exact absurd (List.eq_of_mem_replicate hm) (by decide)

/-- C8, amended: for every block `left`, every single line `right` and every
`width` with `Width left + Width right ≤ width`, strictly smaller when `left`
has more than one line, the result of `JoinHorizontal` is exactly `width`
columns wide, it ends with `right`, and every line of `left` starts the
corresponding line of the result. The line measure `sw` is any measure that
adds up at the concatenations the function makes: a line of `left` followed by
its fill, and the last line followed by its fill and `right`. -/
theorem JoinHorizontal_width_of_fit (sw : String → Nat)
    (left right : String) (width : Int)
    (hr : '\n' ∉ right.data)
    (hfit : (Width sw left : Int) + Width sw right ≤ width)
    (hroom : '\n' ∉ left.data ∨ (Width sw left : Int) + Width sw right < width)
    (hw : width < 2 ^ 63)
    (hfill : ∀ l ∈ (Split left).dropLast,
      sw (l ++ render (width - Width sw right - sw l)) =
        sw l + (width - Width sw right - sw l).toNat)
    (hlast : ∀ l ∈ (Split left).getLast?,
      sw (l ++ render (width - Width sw right - sw l) ++ right) =
        sw l + (width - Width sw right - sw l).toNat + Width sw right) :
    (Width sw (JoinHorizontal sw left right width) : Int) = width ∧
      right.data <:+ (JoinHorizontal sw left right width).data ∧
      List.Forall₂ (fun l x : String => l.data <+: x.data) (Split left)
        (Split (JoinHorizontal sw left right width)) := by
  have hWr : Width sw right = sw right := Width_of_single_line sw hr
  rw [hWr] at hfit hroom hfill hlast
  by_cases hstrict : (Width sw left : Int) + sw right < width
  · have hwr : wrapInt (width - sw right) = width - sw right :=
      wrapInt_eq (by omega) (by omega)
    have hgap : wrapInt (width - sw right - Width sw left) = width - sw right - Width sw left :=
      wrapInt_eq (by omega) (by omega)
    have hpad : ∀ l ∈ Split left,
        wrapInt (width - sw right - Width sw left +
          max 0 (wrapInt ((Width sw left : Int) - (sw l : Int)))) = width - sw right - sw l := by
      intro l hl
      have hle : sw l ≤ Width sw left := (widestLine_le sw (Split left) 0).2 l hl
      have h1 : wrapInt ((Width sw left : Int) - (sw l : Int)) = Width sw left - sw l :=
        wrapInt_eq (by omega) (by omega)
      have h2 : max 0 ((Width sw left : Int) - (sw l : Int)) = Width sw left - sw l :=
        max_eq_right (by omega)
      rw [h1, h2]
      exact (wrapInt_eq (by omega) (by omega)).trans (by omega)
    have hPH : PlaceHorizontal sw (width - sw right) Position.Left left =
        joinLines ((Split left).map fun l => l ++ render (width - sw right - sw l)) := by
      rw [PlaceHorizontal_of_gap sw _ left (by rw [hgap]; omega), hgap]
      congr 1
      apply List.map_congr_left
      intro l hl
      rw [hpad l hl]
    have hJ : JoinHorizontal sw left right width =
        joinLines ((Split left).map fun l => l ++ render (width - sw right - sw l)) ++ right := by
      simp only [JoinHorizontal, hWr, hwr, hPH]
    have hno : ∀ l ∈ Split left, '\n' ∉ (l ++ render (width - sw right - sw l)).data := by
      intro l hl
      simp only [String.data_append, List.mem_append, not_or]
      exact ⟨Split_no_lf left l hl, render_blank_free _⟩
    rw [hJ]
    refine ⟨?_, ?_, ?_⟩
    · rw [Width, widestLine_joinLines_append sw _ (width - sw right).toNat right hr (Split left)
        (Split_ne_nil left) hno ?_ ?_ 0]
      · omega
      · intro l hl
        have hm : l ∈ Split left := List.mem_of_mem_dropLast hl
        have hle : sw l ≤ Width sw left := (widestLine_le sw (Split left) 0).2 l hm
        rw [hfill l hl]
        omega
      · intro l hl
        have hm : l ∈ Split left := List.mem_of_mem_getLast? hl
        have hle : sw l ≤ Width sw left := (widestLine_le sw (Split left) 0).2 l hm
        rw [hlast l hl]
        omega
    · rw [String.data_append]
      exact List.suffix_append _ _
    · apply lines_start_joinLines _ right hr (Split left) (Split_ne_nil left)
      intro l hl
      refine ⟨?_, hno l hl⟩
      rw [String.data_append]
      exact List.prefix_append _ _
  · have hl : '\n' ∉ left.data := hroom.resolve_right hstrict
    have hWl : Width sw left = sw left := Width_of_single_line sw hl
    rw [hWl] at hfit
    have hn : width - (sw right : Int) - sw left = width - sw left - sw right := by omega
    have h := hlast left (by rw [Split_of_single_line hl]; rfl)
    rw [render, hn] at h
    rw [JoinHorizontal_eq_of_fit sw left right width hl hr hfit hw]
    have hnl : '\n' ∉
        (left ++ String.mk (List.replicate (width - sw left - sw right).toNat ' ') ++ right).data := by
      simp only [String.data_append, List.mem_append, not_or]
      refine ⟨⟨hl, ?_⟩, hr⟩
      intro hm
      exact absurd (List.eq_of_mem_replicate hm) (by decide)
    refine ⟨?_, ?_, ?_⟩
    · rw [Width_of_single_line sw hnl, h]
      omega
    · simp only [String.data_append]
      exact List.suffix_append _ _
    · rw [Split_of_single_line hl, Split_of_single_line hnl]
      refine List.Forall₂.cons ?_ List.Forall₂.nil
      simp only [String.data_append, List.append_assoc]
      exact List.prefix_append _ _

theorem JoinHorizontal_width_of_fit_witness :
    '\n' ∉ "c".data ∧
      ((Width cellWidth "\x1b[31maa\x1b[0m\nb" : Int) + Width cellWidth "c" ≤ 5) ∧
      ('\n' ∉ "\x1b[31maa\x1b[0m\nb".data ∨
        (Width cellWidth "\x1b[31maa\x1b[0m\nb" : Int) + Width cellWidth "c" < 5) ∧
      ((5 : Int) < 2 ^ 63) ∧
      (∀ l ∈ (Split "\x1b[31maa\x1b[0m\nb").dropLast,
        cellWidth (l ++ render (5 - Width cellWidth "c" - cellWidth l)) =
          cellWidth l + ((5 : Int) - Width cellWidth "c" - cellWidth l).toNat) ∧
      (∀ l ∈ (Split "\x1b[31maa\x1b[0m\nb").getLast?,
        cellWidth (l ++ render (5 - Width cellWidth "c" - cellWidth l) ++ "c") =
          cellWidth l + ((5 : Int) - Width cellWidth "c" - cellWidth l).toNat +
            Width cellWidth "c") ∧
      ((Width cellWidth (JoinHorizontal cellWidth "\x1b[31maa\x1b[0m\nb" "c" 5) : Int) = 5 ∧
        "c".data <:+ (JoinHorizontal cellWidth "\x1b[31maa\x1b[0m\nb" "c" 5).data ∧
        List.Forall₂ (fun l x : String => l.data <+: x.data) (Split "\x1b[31maa\x1b[0m\nb")
          (Split (JoinHorizontal cellWidth "\x1b[31maa\x1b[0m\nb" "c" 5))) :=
  ⟨by decide, by decide, Or.inr (by decide), by decide, by decide, by decide,
    JoinHorizontal_width_of_fit cellWidth "\x1b[31maa\x1b[0m\nb" "c" 5 (by decide) (by decide)
      (Or.inr (by decide)) (by decide) (by decide) (by decide)⟩

/-- The sample measure `cellWidth` does not add up over every concatenation: an
escape sequence cut in two counts differently from its two halves. -/
theorem cellWidth_not_additive :
    cellWidth "\x1b[31mAB\x1b[0m" = 2 ∧
      cellWidth ("\x1b[3" ++ "1mA") = 1 ∧ cellWidth "\x1b[3" + cellWidth "1mA" = 3 := by
  decide

theorem Count_append (a b : String) : Count (a ++ b) = Count a + Count b := by
  simp [Count, String.data_append, List.count_append]

theorem Count_render (n : Int) : Count (render n) = 0 := by
  simp only [Count, render]
  rw [List.count_eq_zero]
  intro hm
  exact absurd (List.eq_of_mem_replicate hm) (by decide)

theorem Count_joinLines_replicate (e : String) (he : Count e = 0) (n : Nat) :
    Count (joinLines (List.replicate (n + 1) e)) = n := by
  induction n with
  | zero => simpa [joinLines] using he
  | succ k ih =>
    have h : joinLines (List.replicate (k + 1 + 1) e) =
        e ++ "\n" ++ joinLines (List.replicate (k + 1) e) := rfl
    have h1 : Count "\n" = 1 := by decide
    rw [h, Count_append, Count_append, ih, he, h1]
    omega

/-- The number of lines produced by `JoinVertical` when both blocks fit: one
less than the requested height, because `bottom` is appended to the last line
of the placed `top`. -/
theorem Height_JoinVertical_of_fit (sw : String → Nat) (top bottom : String) (height : Int)
    (hfit : (Height top : Int) + Height bottom ≤ height) (hh : height < 2 ^ 63) :
    (Height (JoinVertical sw top bottom height) : Int) = height - 1 := by
  simp only [Height] at hfit
  have hwb : wrapInt (height - Height bottom) = height - (Count bottom + 1 : Nat) :=
    wrapInt_eq (by simp only [Height]; omega) (by simp only [Height]; omega)
  have hwg : wrapInt (height - (Count bottom + 1 : Nat) - (Count top + 1 : Nat)) =
      height - (Count bottom + 1 : Nat) - (Count top + 1 : Nat) :=
    wrapInt_eq (by omega) (by omega)
  simp only [JoinVertical, PlaceVertical, hwb, hwg]
  by_cases hg : height - (Count bottom + 1 : Nat) - (Count top + 1 : Nat) ≤ 0
  · rw [if_pos hg]
    simp only [Height, Count_append]
    push_cast
    omega
  · rw [if_neg hg]
    obtain ⟨k, hk⟩ : ∃ k : Nat,
        (height - (Count bottom + 1 : Nat) - (Count top + 1 : Nat)).toNat = k + 1 :=
      ⟨(height - (Count bottom + 1 : Nat) - (Count top + 1 : Nat)).toNat - 1, by omega⟩
    have h1 : Count "\n" = 1 := by decide
    simp only [Height, Count_append, hk, Count_joinLines_replicate _ (Count_render _) k, h1]
    push_cast
    omega

/-- C9, evaluated on the code: `JoinVertical "A" "B" 3` is `"A\n B"`, a block of
two lines whose last line is a blank followed by `B`; with height 2 the two
blocks end up on one line. -/
theorem JoinVertical_merges_last_line :
    JoinVertical String.length "A" "B" 3 = "A\n B" ∧
      Height (JoinVertical String.length "A" "B" 3) = 2 ∧
      Split (JoinVertical String.length "A" "B" 3) = ["A", " B"] ∧
      JoinVertical String.length "A" "B" 2 = "AB" ∧
      Height (JoinVertical String.length "A" "B" 2) = 1 := by
  decide

/-- C10: when `right` is wider than `width`, and the two subtractions made on
the way stay within the range of a Go `int` (as they do for every non-negative
`width` when the two measured widths together stay below `2 ^ 63`),
`JoinHorizontal` returns `left` immediately followed by `right`, the value it
would return with the placement width clamped to zero. -/
theorem JoinHorizontal_negative_space (sw : String → Nat) (left right : String) (width : Int)
    (hneg : width < Width sw right)
    (hrep : -(2 ^ 63) ≤ width - Width sw right - Width sw left) :
    JoinHorizontal sw left right width = left ++ right ∧
      JoinHorizontal sw left right width =
        PlaceHorizontal sw (max 0 (wrapInt (width - Width sw right))) Position.Left left
          ++ right := by
  have hw : wrapInt (width - Width sw right) = width - Width sw right :=
    wrapInt_eq (by omega) (by omega)
  have hg : wrapInt (width - Width sw right - Width sw left) =
      width - Width sw right - Width sw left := wrapInt_eq hrep (by omega)
  have hmax : max 0 (width - (Width sw right : Int)) = 0 := max_eq_left (by omega)
  have hg0 : wrapInt (0 - (Width sw left : Int)) = 0 - Width sw left :=
    wrapInt_eq (by omega) (by omega)
  simp only [JoinHorizontal, hw, hmax]
  rw [PlaceHorizontal_noop sw _ _ left (by rw [hg]; omega),
    PlaceHorizontal_noop sw _ _ left (by rw [hg0]; omega)]
  exact ⟨rfl, rfl⟩

theorem JoinHorizontal_negative_space_witness :
    ((3 : Int) < Width String.length "CDEFG") ∧
      (-(2 ^ 63) ≤ (3 : Int) - Width String.length "CDEFG" - Width String.length "AB") ∧
      (JoinHorizontal String.length "AB" "CDEFG" 3 = "AB" ++ "CDEFG" ∧
        JoinHorizontal String.length "AB" "CDEFG" 3 =
          PlaceHorizontal String.length
            (max 0 (wrapInt ((3 : Int) - Width String.length "CDEFG"))) Position.Left "AB"
            ++ "CDEFG") :=
  ⟨by decide, by decide,
    JoinHorizontal_negative_space String.length "AB" "CDEFG" 3 (by decide) (by decide)⟩

end Styles
